import Mathlib

/-!
Shallow embedding of `code-postprocessing/bbob_pproc/bestalg.py` (the virtual
best-algorithm module) and proofs about it.

Numeric values are modelled as follows: an IEEE float that is known not to be
NaN is a `Val := WithTop ℚ` (finite rational or `⊤` for `+inf`); a float that
may be NaN is an `Option Val` (`none` is NaN).  This matches how the Python
code treats the values: NaN entries are tested with `np.isnan` and skipped
before any comparison, and the remaining comparisons (`<`, `==`, `<=`) on
finite-or-infinite floats coincide with the `WithTop ℚ` order.
-/

/-- Non-NaN float value: a finite rational or `+inf`. -/
abbrev Val : Type := WithTop ℚ

/-- Computable binary minimum on `Val` (used in specification functions). -/
def vmin (a b : Val) : Val := if a ≤ b then a else b

/-- Multiplication of a non-NaN value by a finite factor, `⊤ * c = ⊤`.
Models IEEE `x * c` for positive finite `c` (as used with `f_factor`). -/
def mulFac (b : Val) (c : ℚ) : Val := WithTop.map (fun q => q * c) b

/-- One algorithm's data set for one function and one dimension
(the fields of `pproc.DataSet` that `bestalg.py` reads).  `evals` rows are
`(alignment value, one evaluation count per run)`; an evaluation count is
`none` when that run never reached the alignment value (NaN in the data). -/
structure DataSetRec where
  funcId : ℤ
  dim : ℤ
  maxevals : List ℚ
  finalfunvals : List ℚ
  evals : List (Val × List (Option ℚ))
  funvals : List (List ℚ)

instance : Inhabited DataSetRec := ⟨⟨0, 0, [], [], [], []⟩⟩

/-- The constructed best-algorithm record (the attributes `BestAlgSet.__init__`
assigns to `self`).  Python dictionaries keyed by algorithm name are modelled
as association lists. -/
structure BestAlgSetRec where
  funcId : ℤ
  dim : ℤ
  algId : String
  comment : String
  target : List ℚ
  ert : List Val
  algs : List String
  evals : List (ℚ × List (Option ℚ))
  maxevals : List (String × List ℚ)
  finalfunvals : List (String × List ℚ)
  funvalsnofail : List (String × List ℚ)
  bestfinalfunvals : List Val
  algbestfinalfunvals : String

/-- One step of the best-algorithm scan over one aligned row
(`for j, tmpert in enumerate(curerts): ...` in `BestAlgSet.__init__`):
NaN entries are skipped, an entry equal to the current best is ignored
(`pass` on ties), a strictly smaller entry replaces the current best. -/
def bestStep (acc : Val × String) (p : Option Val × String) : Val × String :=
  match p.1 with
  | none => acc
  | some v =>
    if v = acc.1 then acc
    else if v < acc.1 then (v, p.2)
    else acc

/-- Scan of one aligned row: starting from `currentbestert = np.inf`,
`currentbestalg = ''`, fold `bestStep` over the row's per-algorithm ert
entries paired with the fixed algorithm order `sortedAlgs`. -/
def bestRow (sortedAlgs : List String) (row : List (Option Val)) : Val × String :=
  (row.zip sortedAlgs).foldl bestStep (⊤, "")

/-- Minimum over the non-NaN entries of a row (`⊤` when there is none). -/
def rowMin : List (Option Val) → Val
  | [] => ⊤
  | none :: t => rowMin t
  | some v :: t => vmin v (rowMin t)

/-- Minimum over the non-NaN values of a row already zipped with names. -/
def pairsMin : List (Option Val × String) → Val
  | [] => ⊤
  | p :: t =>
    match p.1 with
    | none => pairsMin t
    | some v => vmin v (pairsMin t)

/-- The row assertion `assert len((np.isnan(curerts) == False)) > 0` of
`BestAlgSet.__init__`: `np.isnan(curerts)` is the elementwise NaN test,
`== False` the elementwise comparison (an array of the same length), and
`len` its length — so the asserted condition is just that the row has at
least one column. -/
def rowAssertHolds (row : List (Option Val)) : Bool :=
  decide (0 < ((row.map Option.isNone).map (fun b => b == false)).length)

/-- Test `(curline[1:] == finalfunvals).any()` of `BestAlgSet.__init__`:
some position of the row's tail equals the corresponding final value. -/
def anyEqTail (row : List ℚ) (finalvals : List ℚ) : Bool :=
  ((row.drop 1).zip finalvals).any (fun p => p.1 == p.2)

/-- The `funvalsnofail` selection loop of `BestAlgSet.__init__` for one
algorithm: scan the `funvals` rows, stop at the first row whose tail agrees
somewhere with `finalfunvals`, keep the last row otherwise; `none` when
`funvals` is empty (in Python the loop variable would be unbound). -/
def funvalsNoFail : List (List ℚ) → List ℚ → Option (List ℚ)
  | [], _ => none
  | [r], _ => some r
  | r :: r2 :: t, finalvals =>
    if anyEqTail r finalvals then some r else funvalsNoFail (r2 :: t) finalvals

/-- Modelled from the spec (§4.1 step 4): the claimed selection rule — the
first `funvals` row whose tail does not exactly equal `finalfunvals`, with the
last row as fallback.  Stated only to compare against `funvalsNoFail`. -/
def claimedNoFail (l : List (List ℚ)) (finalvals : List ℚ) : Option (List ℚ) :=
  match l.find? (fun r => decide (¬ r.drop 1 = finalvals)) with
  | some r => some r
  | none => l.getLast?

/-- The eval-cursor advance loop `while curLine[0] > funval: curLine = it.next()`
of `BestAlgSet.__init__`: pop rows from the remaining iterator while the
current line's alignment value exceeds `funval`; on exhaustion keep the
current line. -/
def walk (funval : ℚ) (cur : Val × List (Option ℚ)) :
    List (Val × List (Option ℚ)) → ((Val × List (Option ℚ)) × List (Val × List (Option ℚ)))
  | [] => (cur, [])
  | r :: t => if ((funval : ℚ) : Val) < cur.1 then walk funval r t else (cur, r :: t)

/-- The `resDataSet` reconstruction loop of `BestAlgSet.__init__`: one cursor
per algorithm (initial line `np.array([np.inf, 0])`, iterator over that
algorithm's `evals`), persisting across rows; each step records the current
line's run-evals under the row's target. -/
def evalsCursorWalk (data : String → DataSetRec) (pairs : List (ℚ × String)) :
    List (ℚ × List (Option ℚ)) :=
  (pairs.foldl
    (fun (st : (String → Option ((Val × List (Option ℚ)) × List (Val × List (Option ℚ)))) ×
               List (ℚ × List (Option ℚ))) p =>
      let c := (st.1 p.2).getD ((⊤, [some 0]), (data p.2).evals)
      let c2 := walk p.1 c.1 c.2
      (Function.update st.1 p.2 (some c2), st.2 ++ [(p.1, c2.1.2)]))
    (fun _ => none, [])).2

/-- Insertion into a sorted list (helper for the median). -/
def insertSorted (x : Val) : List Val → List Val
  | [] => [x]
  | y :: t => if x ≤ y then x :: y :: t else y :: insertSorted x t

/-- Sorting by insertion (helper for the median). -/
def sortQ (l : List Val) : List Val := l.foldr insertSorted []

/-- Model of `np.median` on non-NaN values: middle element of the sorted list,
or the mean of the two middle elements for even length. -/
def npMedian (l : List Val) : Val :=
  let s := sortQ l
  let n := l.length
  if n % 2 = 1 then s.getD (n / 2) ⊤
  else mulFac (s.getD (n / 2 - 1) ⊤ + s.getD (n / 2) ⊤) (1 / 2)

/-- The `bestfinalfunvals` loop of `BestAlgSet.__init__`: starting from
`np.array([np.inf])`, keep the algorithm with strictly smaller median of
`finalfunvals`; the algorithm name stays unassigned (`none`) if no algorithm
beats the initial `[inf]`. -/
def bestFinal (sortedAlgs : List String) (data : String → DataSetRec) :
    List Val × Option String :=
  sortedAlgs.foldl
    (fun acc alg =>
      if npMedian ((data alg).finalfunvals.map (fun q => (q : Val))) < npMedian acc.1
      then ((data alg).finalfunvals.map (fun q => (q : Val)), some alg)
      else acc)
    ([⊤], none)

/-- The body of `BestAlgSet.__init__` after the function/dimension check and
per-algorithm filtering.  `res` is the output of the external curve aligner
(`readalign.alignArrayData`, an external collaborator per the spec): one row
per aligned target, `(target, one optional ert per algorithm in the order of
`sortedAlgs`)`.  `data` gives each algorithm's single data set. -/
def buildBestAlgSet (sortedAlgs : List String) (data : String → DataSetRec)
    (f d : ℤ) (res : List (ℚ × List (Option Val))) : BestAlgSetRec :=
  let reserts := res.map (fun r => (bestRow sortedAlgs r.2).1)
  let resalgs := res.map (fun r => (bestRow sortedAlgs r.2).2)
  let setalgs := resalgs.dedup
  let bf := bestFinal sortedAlgs data
  { funcId := f
    dim := d
    algId := "Virtual Best Algorithm"
    comment := "Combination of " ++ String.intercalate (", ") sortedAlgs
    target := res.map Prod.fst
    ert := reserts
    algs := resalgs
    evals := evalsCursorWalk data ((res.map Prod.fst).zip resalgs)
    maxevals := setalgs.map (fun a => (a, (data a).maxevals))
    finalfunvals := setalgs.map (fun a => (a, (data a).finalfunvals))
    funvalsnofail :=
      setalgs.map (fun a => (a, (funvalsNoFail (data a).funvals (data a).finalfunvals).getD []))
    bestfinalfunvals := bf.1
    algbestfinalfunvals := bf.2.getD "" }

/-- The set of function ids over all incoming records
(`f |= set(j.funcId for j in i)`), as a duplicate-free list. -/
def funcIdsOf (inp : List (String × List DataSetRec)) : List ℤ :=
  (((inp.map Prod.snd).flatten).map DataSetRec.funcId).dedup

/-- The set of dimensions over all incoming records. -/
def dimsOf (inp : List (String × List DataSetRec)) : List ℤ :=
  (((inp.map Prod.snd).flatten).map DataSetRec.dim).dedup

/-- The per-algorithm filtering of `BestAlgSet.__init__`: an algorithm with
zero or more than one record is skipped with a warning; exactly one record is
kept. -/
def filterRecords (inp : List (String × List DataSetRec)) : List (String × DataSetRec) :=
  inp.filterMap (fun p =>
    match p.2 with
    | [ds] => some (p.1, ds)
    | _ => none)

/-- Lookup in the filtered association list (`dict_alg[alg]`). -/
def dataOf (assoc : List (String × DataSetRec)) (a : String) : DataSetRec :=
  ((assoc.find? (fun p => p.1 == a)).map Prod.snd).getD default

/-- Entry point of construction.  Modelled from the spec: `ppfig.Usage` is not
under src/; per the spec (§7) a usage error is fatal and aborts the current
construction, so the `Usage(...)` call is modelled as returning an error.
The remaining failure modes visible in the source are the `pop` from an empty
set when there are no records at all, and the per-row assertion. -/
def mkBestAlgSet (inp : List (String × List DataSetRec))
    (res : List (ℚ × List (Option Val))) : Except String BestAlgSetRec :=
  if 1 < (funcIdsOf inp).length ∨ 1 < (dimsOf inp).length then
    Except.error ("Expect the data of algorithms for only one function and one dimension.")
  else
    match funcIdsOf inp, dimsOf inp with
    | [f], [d] =>
      if res.all (fun r => rowAssertHolds r.2) then
        let filtered := filterRecords inp
        Except.ok (buildBestAlgSet (filtered.map Prod.fst) (dataOf filtered) f d res)
      else Except.error ("AssertionError")
    | _, _ => Except.error ("KeyError: pop from an empty set")

/-- `BestAlgSet.detERT` for one requested target: `self.ert[self.target <= f]`
then the first selected entry, `np.inf` on `IndexError`. -/
def detERT1 (target : List ℚ) (ert : List Val) (f : ℚ) : Val :=
  let idx := target.map (fun t => decide (t ≤ f))
  match (ert.zip idx).filterMap (fun p => if p.2 then some p.1 else none) with
  | [] => ⊤
  | e :: _ => e

/-- `BestAlgSet.detERT` over a list of requested targets. -/
def detERT (target : List ℚ) (ert : List Val) (targets : List ℚ) : List Val :=
  targets.map (detERT1 target ert)

/-- `BestAlgSet.detEvals` for one requested target: scan `self.evals` for the
first line with `line[0] <= f` and return its run-evals with the winning
algorithm of that line; otherwise an all-NaN vector of length
`len(self.bestfinalfunvals)` (`n` here) and no algorithm. -/
def detEvals1 (evalRows : List (ℚ × List (Option ℚ))) (algs : List String)
    (n : ℕ) (f : ℚ) : List (Option ℚ) × Option String :=
  match (evalRows.zip algs).find? (fun p => decide (p.1.1 ≤ f)) with
  | some p => (p.1.2, some p.2)
  | none => (List.replicate n none, none)

/-- State of the near-best crediting loop of `extractBestAlgorithms` for one
target row: the credited list so far, `secondbest_ERT`, `secondbest_str`,
`secondbest_included`. -/
structure ExtractState where
  sel : List String
  sbE : Val
  sbS : String
  inc : Bool

/-- One iteration of the `for astring in j` loop of `extractBestAlgorithms`:
an algorithm with no ert at this target (no data for the dimension, or NaN —
both compare false) does nothing; a non-winner first updates the second-best
tracker on strict improvement, then is credited if within `f_factor` of the
best ert. -/
def extractStep (winner : String) (bestERT : Val) (ffac : ℚ)
    (st : ExtractState) (p : String × Option Val) : ExtractState :=
  match p.2 with
  | none => st
  | some e =>
    if p.1 ≠ winner then
      let st1 := if e < st.sbE then { st with sbE := e, sbS := p.1 } else st
      if e ≤ mulFac bestERT ffac then { st1 with sel := st1.sel ++ [p.1], inc := true }
      else st1
    else st

/-- The crediting computation of `extractBestAlgorithms` for one target row:
the winner is credited first, then the loop over all algorithms runs, and
finally the second best is appended when nothing was within the factor and a
second best was found (`secondbest_str != ''`). -/
def extractRow (winner : String) (bestERT : Val) (ffac : ℚ)
    (algs : List (String × Option Val)) : List String :=
  let st := algs.foldl (extractStep winner bestERT ffac) ⟨[winner], ⊤, "", false⟩
  if !st.inc ∧ st.sbS ≠ "" then st.sel ++ [st.sbS] else st.sel

/-- Boolean version of the within-factor crediting test of one loop iteration. -/
def withinFac (winner : String) (bestERT : Val) (ffac : ℚ)
    (p : String × Option Val) : Bool :=
  match p.2 with
  | none => false
  | some e => decide (p.1 ≠ winner) && decide (e ≤ mulFac bestERT ffac)

/-- Minimum ert among non-winner algorithms with a non-NaN ert (`⊤` if none):
the value `secondbest_ERT` tracks. -/
def nwMin (winner : String) : List (String × Option Val) → Val
  | [] => ⊤
  | p :: t =>
    match p.2 with
    | none => nwMin winner t
    | some e => if p.1 ≠ winner then vmin e (nwMin winner t) else nwMin winner t

/-- The in-range winner extraction of `getAllContributingAlgorithmsToBest`:
the winning algorithms of the grid rows whose target lies in `[lb, ub]`. -/
def correctedEntries (target : List ℚ) (algs : List String) (lb ub : ℚ) : List String :=
  ((target.zip algs).filter (fun p => decide (lb ≤ p.1) && decide (p.1 ≤ ub))).map Prod.snd

/-- The per-(dimension, algorithm) tally of `getAllContributingAlgorithmsToBest`
for one dimension: over that dimension's cells (one `(target, algs)` pair per
function), add `correctedbestalgentries.count(a)` for each cell whose
algorithm set contains `a`. -/
def countsFor (cells : List (List ℚ × List String)) (lb ub : ℚ) (a : String) : ℕ :=
  (cells.map (fun c =>
    if a ∈ c.2 then (correctedEntries c.1 c.2 lb ub).count a else 0)).sum

/-- All algorithm names appearing in some cell of a dimension (the union of
the per-cell `setofalgs`), as a duplicate-free list. -/
def dimAlgs (cells : List (List ℚ × List String)) : List String :=
  ((cells.map Prod.snd).flatten).dedup

/-- `BestAlgSet.__eq__`: equality of two instances of the class is decided by
`funcId`, `dim`, `algId` and `comment` alone. -/
def beqBAS (x y : BestAlgSetRec) : Bool :=
  x.funcId == y.funcId && x.dim == y.dim && x.algId == y.algId && x.comment == y.comment

/-- `BestAlgSet.__ne__`: `not self.__eq__(other)`. -/
def bneBAS (x y : BestAlgSetRec) : Bool := !(beqBAS x y)

/-! Theorems.  The claim identifiers refer to the claims list of this
verification effort; each claim's main theorem carries the claim id in its
doc comment. -/

theorem vmin_eq_min (a b : Val) : vmin a b = min a b := by
  simp [vmin, min_def]

theorem bestFold_fst (l : List (Option Val × String)) (b : Val) (a : String) :
    (l.foldl bestStep (b, a)).1 = min b (pairsMin l) := by
  induction l generalizing b a with
  | nil => simp [pairsMin]
  | cons p t ih =>
    rcases p with ⟨op, s⟩
    rcases op with _ | v
    · rw [List.foldl_cons]
      show (t.foldl bestStep (b, a)).1 = min b (pairsMin t)
      exact ih b a
    · rw [List.foldl_cons]
      show (t.foldl bestStep
          (if v = b then (b, a) else if v < b then (v, s) else (b, a))).1
        = min b (vmin v (pairsMin t))
      rw [vmin_eq_min]
      by_cases h1 : v = b
      · subst h1
        rw [if_pos rfl, ih, ← min_assoc, min_self]
      · by_cases h2 : v < b
        · rw [if_neg h1, if_pos h2, ih,
            min_eq_right ((min_le_left v (pairsMin t)).trans h2.le)]
        · rw [if_neg h1, if_neg h2, ih, ← min_assoc,
            min_eq_left (le_of_not_lt h2)]

theorem bestFold_snd_stay (l : List (Option Val × String)) (b : Val) (a : String)
    (h : ¬ pairsMin l < b) : (l.foldl bestStep (b, a)).2 = a := by
  induction l generalizing b a with
  | nil => rfl
  | cons p t ih =>
    rcases p with ⟨op, s⟩
    rcases op with _ | v
    · exact ih b a h
    · have h' : ¬ vmin v (pairsMin t) < b := h
      rw [vmin_eq_min] at h'
      have hv : ¬ v < b := fun hh => h' ((min_le_left _ _).trans_lt hh)
      have hp : ¬ pairsMin t < b := fun hh => h' ((min_le_right _ _).trans_lt hh)
      rw [List.foldl_cons]
      show (t.foldl bestStep
          (if v = b then (b, a) else if v < b then (v, s) else (b, a))).2 = a
      by_cases h1 : v = b
      · rw [if_pos h1]; exact ih b a hp
      · rw [if_neg h1, if_neg hv]; exact ih b a hp

theorem bestFold_snd_find (l : List (Option Val × String)) (b : Val) (a : String)
    (h : pairsMin l < b) :
    l.find? (fun p => decide (p.1 = some (pairsMin l))) =
      some (some (pairsMin l), (l.foldl bestStep (b, a)).2) := by
  induction l generalizing b a with
  | nil => exact absurd h (not_top_lt)
  | cons p t ih =>
    rcases p with ⟨op, s⟩
    rcases op with _ | v
    · have hpm : pairsMin ((none, s) :: t) = pairsMin t := rfl
      rw [hpm] at h ⊢
      rw [List.find?_cons]
      have hpred : decide (((none, s) : Option Val × String).1 = some (pairsMin t))
          = false := by simp
      rw [hpred]
      rw [List.foldl_cons]
      show List.find? _ t = some (some (pairsMin t), (t.foldl bestStep (b, a)).2)
      exact ih b a h
    · have hpm : pairsMin ((some v, s) :: t) = min v (pairsMin t) := by
        show vmin v (pairsMin t) = _; rw [vmin_eq_min]
      rw [hpm] at h ⊢
      by_cases h1 : v = b
      · have hpv : pairsMin t < v := by
          rcases lt_or_le (pairsMin t) v with hlt | hle
          · exact hlt
          · rw [min_eq_left hle, h1] at h; exact absurd h (lt_irrefl b)
        rw [min_eq_right hpv.le] at h ⊢
        rw [List.find?_cons]
        have hpred : decide (((some v, s) : Option Val × String).1 = some (pairsMin t))
            = false := by
          simp only [decide_eq_false_iff_not, Option.some.injEq]
          exact fun hh => absurd hh (ne_of_gt hpv)
        rw [hpred, List.foldl_cons]
        show List.find? _ t = some (some (pairsMin t), (t.foldl bestStep
          (if v = b then (b, a) else if v < b then (v, s) else (b, a))).2)
        rw [if_pos h1]
        exact ih b a h
      · by_cases h2 : v < b
        · rcases lt_or_le (pairsMin t) v with hpv | hvp
          · rw [min_eq_right hpv.le] at h ⊢
            rw [List.find?_cons]
            have hpred : decide (((some v, s) : Option Val × String).1 = some (pairsMin t))
                = false := by
              simp only [decide_eq_false_iff_not, Option.some.injEq]
              exact fun hh => absurd hh (ne_of_gt hpv)
            rw [hpred, List.foldl_cons]
            show List.find? _ t = some (some (pairsMin t), (t.foldl bestStep
              (if v = b then (b, a) else if v < b then (v, s) else (b, a))).2)
            rw [if_neg h1, if_pos h2]
            exact ih v s hpv
          · rw [min_eq_left hvp] at h ⊢
            rw [List.find?_cons]
            have hpred : decide (((some v, s) : Option Val × String).1 = some v)
                = true := by simp
            rw [hpred]
            rw [List.foldl_cons]
            show some ((some v : Option Val), s) = some (some v, (t.foldl bestStep
              (if v = b then (b, a) else if v < b then (v, s) else (b, a))).2)
            rw [if_neg h1, if_pos h2]
            rw [bestFold_snd_stay t v s (not_lt.mpr hvp)]
        · have hb : b ≤ v := le_of_not_lt h2
          have hpv : pairsMin t < v := by
            rcases lt_or_le (pairsMin t) v with hlt | hle
            · exact hlt
            · rw [min_eq_left hle] at h; exact absurd (h.trans_le hb) (lt_irrefl v)
          rw [min_eq_right hpv.le] at h ⊢
          rw [List.find?_cons]
          have hpred : decide (((some v, s) : Option Val × String).1 = some (pairsMin t))
              = false := by
            simp only [decide_eq_false_iff_not, Option.some.injEq]
            exact fun hh => absurd hh (ne_of_gt hpv)
          rw [hpred, List.foldl_cons]
          show List.find? _ t = some (some (pairsMin t), (t.foldl bestStep
            (if v = b then (b, a) else if v < b then (v, s) else (b, a))).2)
          rw [if_neg h1, if_neg h2]
          exact ih b a h

theorem pairsMin_zip (row : List (Option Val)) (algs : List String)
    (h : row.length ≤ algs.length) : pairsMin (row.zip algs) = rowMin row := by
  induction row generalizing algs with
  | nil => cases algs <;> rfl
  | cons o t ih =>
    cases algs with
    | nil => simp at h
    | cons a as =>
      have h' : t.length ≤ as.length := by
        simpa [Nat.succ_le_succ_iff] using h
      cases o with
      | none =>
        show pairsMin ((none, a) :: t.zip as) = rowMin (none :: t)
        show pairsMin (t.zip as) = rowMin t
        exact ih as h'
      | some v =>
        show vmin v (pairsMin (t.zip as)) = vmin v (rowMin t)
        rw [ih as h']

/-- C1 (amended): for every aligned grid row, the stored ert is the minimum of
the row's non-NaN entries, and whenever that minimum is finite (strictly below
`+inf`) the stored winning algorithm is the earliest algorithm, in the fixed
order, attaining it: the first pair of the row zipped with the algorithm order
whose ert equals the minimum carries exactly the stored winner, so later equal
values never overwrite an earlier winner.  The amendment restricts the winner
part to rows with a finite minimum: the original claim also fails on rows
whose best non-NaN ert is `+inf` (see the counterexample). -/
theorem bestRow_min_first (sortedAlgs : List String) (row : List (Option Val))
    (h : row.length = sortedAlgs.length) :
    (bestRow sortedAlgs row).1 = rowMin row ∧
    (rowMin row < ⊤ →
      (row.zip sortedAlgs).find? (fun p => decide (p.1 = some (rowMin row))) =
        some (some (rowMin row), (bestRow sortedAlgs row).2)) := by
  have hz : pairsMin (row.zip sortedAlgs) = rowMin row :=
    pairsMin_zip row sortedAlgs (le_of_eq h)
  constructor
  · rw [bestRow, bestFold_fst, hz, min_eq_right le_top]
  · intro hlt
    rw [← hz] at hlt
    rw [← hz, bestRow]
    exact bestFold_snd_find (row.zip sortedAlgs) ⊤ "" hlt

/-- Witness for C1's theorem at the spec's tie scenario: algorithms A, B, C
with erts 100, 150, 100 at one row; the minimum 100 is attained first by A,
and the stored winner is A (the tie with C does not overwrite it). -/
theorem bestRow_min_first_witness :
    (([some ((100 : ℚ) : Val), some ((150 : ℚ) : Val), some ((100 : ℚ) : Val)]).length
        = (["A", "B", "C"] : List String).length) ∧
    ((bestRow ["A", "B", "C"]
        [some ((100 : ℚ) : Val), some ((150 : ℚ) : Val), some ((100 : ℚ) : Val)]).1
      = rowMin [some ((100 : ℚ) : Val), some ((150 : ℚ) : Val), some ((100 : ℚ) : Val)] ∧
    (rowMin [some ((100 : ℚ) : Val), some ((150 : ℚ) : Val), some ((100 : ℚ) : Val)] < ⊤ →
      (([some ((100 : ℚ) : Val), some ((150 : ℚ) : Val), some ((100 : ℚ) : Val)]).zip
          ["A", "B", "C"]).find?
          (fun p => decide (p.1 =
            some (rowMin [some ((100 : ℚ) : Val), some ((150 : ℚ) : Val),
              some ((100 : ℚ) : Val)]))) =
        some (some (rowMin [some ((100 : ℚ) : Val), some ((150 : ℚ) : Val),
            some ((100 : ℚ) : Val)]),
          (bestRow ["A", "B", "C"]
            [some ((100 : ℚ) : Val), some ((150 : ℚ) : Val), some ((100 : ℚ) : Val)]).2))) :=
  ⟨by decide, bestRow_min_first _ _ (by decide)⟩

/-- Counterexample to C1 as stated: a single algorithm A whose aligned ert at
the row is `+inf` — a non-NaN value.  The minimum over the algorithms with a
non-NaN ert is `+inf`, attained by A (the only algorithm), but the stored
winning algorithm is the initial `''`, not A: an entry equal to the initial
`currentbestert = inf` never updates `currentbestalg`. -/
theorem bestRow_inf_row_counterexample :
    rowMin [some (⊤ : Val)] = ⊤ ∧ (bestRow ["A"] [some (⊤ : Val)]).2 ≠ "A" := by
  constructor
  · decide
  · decide

/-- C2 (behavior at the failing input): with a single algorithm whose aligned
ert at a row is NaN, the assertion of the row-selection step still passes —
`len((np.isnan(curerts) == False))` is the number of algorithms, not the
number of non-NaN entries — and the scan silently records the defaults
`ert = inf` and winning algorithm `''` instead of failing loudly. -/
theorem rowAssert_allNaN_passes :
    rowAssertHolds [(none : Option Val)] = true ∧
    bestRow ["A"] [(none : Option Val)] = ((⊤ : Val), "") := by
  constructor
  · decide
  · decide

/-- C3: the construction raises the usage error exactly when the input records
span more than one function id or more than one dimension; otherwise — given
at least one record, and grid rows with at least one column (what the
in-construction assertion checks) — a BestAlgSet is produced.  `ppfig.Usage`
is modelled from the spec as a fatal, construction-aborting usage error. -/
theorem mkBestAlgSet_usage (inp : List (String × List DataSetRec))
    (res : List (ℚ × List (Option Val)))
    (hne : (inp.map Prod.snd).flatten ≠ [])
    (hrows : ∀ r ∈ res, r.2 ≠ ([] : List (Option Val))) :
    if 1 < (funcIdsOf inp).length ∨ 1 < (dimsOf inp).length
    then mkBestAlgSet inp res =
      Except.error ("Expect the data of algorithms for only one function and one dimension.")
    else ∃ b, mkBestAlgSet inp res = Except.ok b := by
  by_cases hm : 1 < (funcIdsOf inp).length ∨ 1 < (dimsOf inp).length
  · rw [if_pos hm, mkBestAlgSet, if_pos hm]
  · rw [if_neg hm]
    have hm' := hm
    push_neg at hm'
    have hf : ∃ f, funcIdsOf inp = [f] := by
      have hfne : funcIdsOf inp ≠ [] := by
        rw [funcIdsOf, ne_eq, List.dedup_eq_nil, List.map_eq_nil_iff]
        exact hne
      have hpos : 0 < (funcIdsOf inp).length := List.length_pos.mpr hfne
      exact List.length_eq_one.mp (by omega)
    have hd : ∃ d, dimsOf inp = [d] := by
      have hdne : dimsOf inp ≠ [] := by
        rw [dimsOf, ne_eq, List.dedup_eq_nil, List.map_eq_nil_iff]
        exact hne
      have hpos : 0 < (dimsOf inp).length := List.length_pos.mpr hdne
      exact List.length_eq_one.mp (by omega)
    rcases hf with ⟨f, hf⟩
    rcases hd with ⟨d, hd⟩
    have hassert : res.all (fun r => rowAssertHolds r.2) = true := by
      rw [List.all_eq_true]
      intro r hr
      have hr2 := hrows r hr
      rw [rowAssertHolds]
      simp [List.length_pos, hr2]
    rw [mkBestAlgSet, if_neg hm, hf, hd]
    show ∃ b, (if res.all (fun r => rowAssertHolds r.2) = true then _ else _) = Except.ok b
    rw [if_pos hassert]
    exact ⟨_, rfl⟩

/-- Witness for C3's theorem: a single algorithm with one record (one function,
one dimension) and an empty grid — the check passes and a record is built. -/
theorem mkBestAlgSet_usage_witness :
    ((([("A", [(⟨1, 2, [], [], [], []⟩ : DataSetRec)])].map Prod.snd).flatten
        ≠ ([] : List DataSetRec)) ∧
     (∀ r ∈ ([] : List (ℚ × List (Option Val))), r.2 ≠ ([] : List (Option Val)))) ∧
    (if 1 < (funcIdsOf [("A", [(⟨1, 2, [], [], [], []⟩ : DataSetRec)])]).length ∨
        1 < (dimsOf [("A", [(⟨1, 2, [], [], [], []⟩ : DataSetRec)])]).length
     then mkBestAlgSet [("A", [(⟨1, 2, [], [], [], []⟩ : DataSetRec)])] [] =
       Except.error ("Expect the data of algorithms for only one function and one dimension.")
     else ∃ b, mkBestAlgSet [("A", [(⟨1, 2, [], [], [], []⟩ : DataSetRec)])] [] =
       Except.ok b) :=
  ⟨⟨by simp, by simp⟩, mkBestAlgSet_usage _ _ (by simp) (by simp)⟩

theorem detERT1_nil (ert : List Val) (f : ℚ) : detERT1 [] ert f = ⊤ := by
  simp [detERT1, List.zip_nil_right]

theorem detERT1_cons (t0 : ℚ) (ts : List ℚ) (e0 : Val) (es : List Val) (f : ℚ) :
    detERT1 (t0 :: ts) (e0 :: es) f =
      if t0 ≤ f then e0 else detERT1 ts es f := by
  by_cases ht : t0 ≤ f <;>
    simp [detERT1, List.filterMap_cons, ht]

/-- C4: for a requested target `f`, `detERT` returns the ert of the first grid
row whose target is at most `f`; when `f` is stricter than every recorded
target it returns infinity instead of raising. -/
theorem detERT1_first_row (target : List ℚ) (ert : List Val) (f : ℚ)
    (h : target.length = ert.length) :
    ((∀ t ∈ target, f < t) → detERT1 target ert f = ⊤) ∧
    (∀ i (hi : i < target.length), target.get ⟨i, hi⟩ ≤ f →
      (∀ k (hk : k < i), f < target.get ⟨k, hk.trans hi⟩) →
      detERT1 target ert f = ert.get ⟨i, h ▸ hi⟩) := by
  induction target generalizing ert with
  | nil =>
    refine ⟨fun _ => detERT1_nil ert f, fun i hi => absurd hi (by simp)⟩
  | cons t0 ts ih =>
    cases ert with
    | nil => simp at h
    | cons e0 es =>
      have h' : ts.length = es.length := by simpa using h
      constructor
      · intro hall
        rw [detERT1_cons, if_neg (not_le.mpr (hall t0 (List.mem_cons_self t0 ts)))]
        exact (ih es h').1 (fun t ht => hall t (List.mem_cons_of_mem t0 ht))
      · intro i hi hle hmin
        cases i with
        | zero =>
          have hle0 : t0 ≤ f := hle
          rw [detERT1_cons, if_pos hle0]
          rfl
        | succ j =>
          have ht0 : f < t0 := hmin 0 (Nat.succ_pos j)
          rw [detERT1_cons, if_neg (not_le.mpr ht0)]
          exact (ih es h').2 j (Nat.lt_of_succ_lt_succ hi) hle
            (fun k hk => hmin (k + 1) (Nat.succ_lt_succ hk))

/-- Witness for C4's theorem: grid targets `[1/10, 1/100]` with erts
`[100, 300]`; both conjuncts are instantiated below at `f = 1/100` (first
row with target at most `f` is row 1) by the hypothesis-free application. -/
theorem detERT1_first_row_witness :
    (([(1 : ℚ)/10, 1/100]).length = ([((100 : ℚ) : Val), ((300 : ℚ) : Val)]).length ∧
    (((∀ t ∈ [(1 : ℚ)/10, 1/100], (1 : ℚ)/1000 < t) →
        detERT1 [(1 : ℚ)/10, 1/100] [((100 : ℚ) : Val), ((300 : ℚ) : Val)] (1/1000) = ⊤) ∧
      (∀ i (hi : i < ([(1 : ℚ)/10, 1/100]).length),
        ([(1 : ℚ)/10, 1/100]).get ⟨i, hi⟩ ≤ 1/1000 →
        (∀ k (hk : k < i), (1 : ℚ)/1000 < ([(1 : ℚ)/10, 1/100]).get ⟨k, hk.trans hi⟩) →
        detERT1 [(1 : ℚ)/10, 1/100] [((100 : ℚ) : Val), ((300 : ℚ) : Val)] (1/1000) =
          ([((100 : ℚ) : Val), ((300 : ℚ) : Val)]).get ⟨i, by simpa using hi⟩))) :=
  ⟨by decide, detERT1_first_row [(1 : ℚ)/10, 1/100]
    [((100 : ℚ) : Val), ((300 : ℚ) : Val)] (1/1000) (by decide)⟩

/-- C5 (amended): for each winning algorithm, the stored `funvalsnofail` entry
is the first row of that algorithm's `funvals` whose tail agrees with the
recorded `finalfunvals` in at least one position (`(curline[1:] ==
finalfunvals).any()`); if no row matches, the last row scanned is kept.  The
amendment inverts the claim's selection test: the code keeps the first row
that does touch the final values, not the first row that differs from them. -/
theorem funvalsNoFail_first_match (l : List (List ℚ)) (finalvals : List ℚ) :
    funvalsNoFail l finalvals =
      Option.orElse (l.find? (fun r => anyEqTail r finalvals)) (fun _ => l.getLast?) := by
  induction l with
  | nil => rfl
  | cons r t ih =>
    cases t with
    | nil =>
      by_cases hr : anyEqTail r finalvals <;>
        simp [funvalsNoFail, List.find?_cons, hr, Option.orElse]
    | cons r2 t2 =>
      by_cases hr : anyEqTail r finalvals
      · rw [funvalsNoFail, if_pos hr, List.find?_cons]
        simp [hr, Option.orElse]
      · rw [funvalsNoFail, if_neg hr, List.find?_cons]
        simp only [hr]
        rw [ih, List.getLast?_cons_cons]

/-- Counterexample to C5 as stated: `funvals = [[1, 7], [2, 5]]`,
`finalfunvals = [5]`.  The first row whose tail (`[7]`) does not equal the
final values is the first row, so the claim selects `[1, 7]`; the code's
`any()`-equality break selects `[2, 5]`. -/
theorem funvalsNoFail_counterexample :
    funvalsNoFail [[1, 7], [2, 5]] [5] = some [2, 5] ∧
    claimedNoFail [[1, 7], [2, 5]] [5] = some [1, 7] ∧
    funvalsNoFail [[1, 7], [2, 5]] [5] ≠ claimedNoFail [[1, 7], [2, 5]] [5] := by
  refine ⟨by decide, by decide, by decide⟩

theorem extractStep_some (winner : String) (bestERT : Val) (ffac : ℚ)
    (st : ExtractState) (s : String) (e : Val) (hsw : s ≠ winner) :
    extractStep winner bestERT ffac st (s, some e) =
      ⟨st.sel ++ (if e ≤ mulFac bestERT ffac then [s] else []),
       if e < st.sbE then e else st.sbE,
       if e < st.sbE then s else st.sbS,
       if e ≤ mulFac bestERT ffac then true else st.inc⟩ := by
  show (if (s, some e).1 ≠ winner then
      (let st1 := if e < st.sbE then { st with sbE := e, sbS := s } else st;
       if e ≤ mulFac bestERT ffac then { st1 with sel := st1.sel ++ [s], inc := true }
       else st1)
    else st) = _
  rw [if_pos hsw]
  by_cases hlt1 : e < st.sbE <;> by_cases hwf : e ≤ mulFac bestERT ffac <;>
    simp [hlt1, hwf]

theorem nwMin_cons_le (winner : String) (q : String × Option Val)
    (t : List (String × Option Val)) :
    nwMin winner (q :: t) ≤ nwMin winner t := by
  rcases q with ⟨s, o⟩
  rcases o with _ | v
  · exact le_of_eq rfl
  · by_cases hsw : s ≠ winner
    · show (if s ≠ winner then vmin v (nwMin winner t) else nwMin winner t) ≤ _
      rw [if_pos hsw, vmin_eq_min]
      exact min_le_right v (nwMin winner t)
    · show (if s ≠ winner then vmin v (nwMin winner t) else nwMin winner t) ≤ _
      rw [if_neg hsw]

theorem nwMin_le (winner : String) (l : List (String × Option Val))
    (p : String × Option Val) (hp : p ∈ l) (hw : p.1 ≠ winner) (e : Val)
    (he : p.2 = some e) : nwMin winner l ≤ e := by
  induction l with
  | nil => cases hp
  | cons q t ih =>
    rcases List.mem_cons.mp hp with rfl | hmem
    · rcases p with ⟨s, o⟩
      cases he
      show (if s ≠ winner then vmin e (nwMin winner t) else nwMin winner t) ≤ e
      rw [if_pos hw, vmin_eq_min]
      exact min_le_left e (nwMin winner t)
    · exact (nwMin_cons_le winner q t).trans (ih hmem)

theorem extractFold_inv (winner : String) (bestERT : Val) (ffac : ℚ)
    (l : List (String × Option Val)) (st : ExtractState) :
    (l.foldl (extractStep winner bestERT ffac) st).sel
        = st.sel ++ (l.filter (withinFac winner bestERT ffac)).map Prod.fst ∧
    (l.foldl (extractStep winner bestERT ffac) st).inc
        = (st.inc || l.any (withinFac winner bestERT ffac)) ∧
    (l.foldl (extractStep winner bestERT ffac) st).sbE = min st.sbE (nwMin winner l) ∧
    (nwMin winner l < st.sbE →
      ∃ p ∈ l, p.1 ≠ winner ∧ p.2 = some (nwMin winner l) ∧
        (l.foldl (extractStep winner bestERT ffac) st).sbS = p.1) ∧
    (¬ nwMin winner l < st.sbE →
      (l.foldl (extractStep winner bestERT ffac) st).sbS = st.sbS) := by
  induction l generalizing st with
  | nil =>
    refine ⟨by simp, by simp, by simp [nwMin, min_eq_left le_top], ?_, fun _ => rfl⟩
    intro hlt
    exact absurd hlt not_top_lt
  | cons p t ih =>
    rcases p with ⟨s, o⟩
    rcases o with _ | e
    · obtain ⟨ih1, ih2, ih3, ih4, ih5⟩ := ih st
      have hstep : extractStep winner bestERT ffac st (s, none) = st := rfl
      have hfac : withinFac winner bestERT ffac (s, none) = false := rfl
      have hnw : nwMin winner ((s, none) :: t) = nwMin winner t := rfl
      rw [List.foldl_cons, hstep]
      refine ⟨?_, ?_, ?_, ?_, ?_⟩
      · rw [ih1, List.filter_cons, hfac]
        simp
      · rw [ih2, List.any_cons, hfac, Bool.false_or]
      · rw [ih3, hnw]
      · rw [hnw]
        intro hlt
        obtain ⟨q, hq, hq1, hq2, hq3⟩ := ih4 hlt
        exact ⟨q, List.mem_cons_of_mem _ hq, hq1, hq2, hq3⟩
      · rw [hnw]
        exact ih5
    · by_cases hsw : s ≠ winner
      · have hnw : nwMin winner ((s, some e) :: t) = min e (nwMin winner t) := by
          show (if s ≠ winner then vmin e (nwMin winner t) else nwMin winner t) = _
          rw [if_pos hsw, vmin_eq_min]
        have hfac : withinFac winner bestERT ffac (s, some e)
            = decide (e ≤ mulFac bestERT ffac) := by
          simp [withinFac, hsw]
        obtain ⟨ih1, ih2, ih3, ih4, ih5⟩ := ih
          ⟨st.sel ++ (if e ≤ mulFac bestERT ffac then [s] else []),
           if e < st.sbE then e else st.sbE,
           if e < st.sbE then s else st.sbS,
           if e ≤ mulFac bestERT ffac then true else st.inc⟩
        rw [List.foldl_cons, extractStep_some winner bestERT ffac st s e hsw]
        have hifmin : (if e < st.sbE then e else st.sbE) = min e st.sbE := by
          by_cases hlt1 : e < st.sbE
          · rw [if_pos hlt1, min_eq_left hlt1.le]
          · rw [if_neg hlt1, min_eq_right (le_of_not_lt hlt1)]
        refine ⟨?_, ?_, ?_, ?_, ?_⟩
        · rw [ih1, List.filter_cons, hfac]
          by_cases hwf : e ≤ mulFac bestERT ffac
          · simp [hwf]
          · simp [hwf]
        · rw [ih2, List.any_cons, hfac]
          by_cases hwf : e ≤ mulFac bestERT ffac
          · simp [hwf]
          · simp [hwf]
        · rw [ih3, hnw]
          show min (if e < st.sbE then e else st.sbE) (nwMin winner t) = _
          rw [hifmin, min_assoc, min_left_comm]
        · rw [hnw]
          intro hm
          by_cases hlt1 : e < st.sbE
          · by_cases hnw2 : nwMin winner t < e
            · have hlt' : nwMin winner t < (if e < st.sbE then e else st.sbE) := by
                rw [if_pos hlt1]
                exact hnw2
              obtain ⟨q, hq, hq1, hq2, hq3⟩ := ih4 hlt'
              refine ⟨q, List.mem_cons_of_mem _ hq, hq1, ?_, hq3⟩
              rw [min_eq_right hnw2.le]
              exact hq2
            · have hle : e ≤ nwMin winner t := le_of_not_lt hnw2
              have hstay : ¬ nwMin winner t < (if e < st.sbE then e else st.sbE) := by
                rw [if_pos hlt1]
                exact hnw2
              refine ⟨(s, some e), List.mem_cons_self _ _, hsw, ?_, ?_⟩
              · rw [min_eq_left hle]
              · rw [ih5 hstay]
                simp only [if_pos hlt1]
          · have hsbe : st.sbE ≤ e := le_of_not_lt hlt1
            have hnw3 : nwMin winner t < st.sbE := by
              rcases min_lt_iff.mp hm with h1 | h2
              · exact absurd h1 hlt1
              · exact h2
            have hlt' : nwMin winner t < (if e < st.sbE then e else st.sbE) := by
              rw [if_neg hlt1]
              exact hnw3
            obtain ⟨q, hq, hq1, hq2, hq3⟩ := ih4 hlt'
            refine ⟨q, List.mem_cons_of_mem _ hq, hq1, ?_, hq3⟩
            rw [min_eq_right ((hnw3.trans_le hsbe)).le]
            exact hq2
        · rw [hnw]
          intro hm
          rw [min_lt_iff] at hm
          push_neg at hm
          have hstay : ¬ nwMin winner t < (if e < st.sbE then e else st.sbE) := by
            rw [if_neg (not_lt.mpr hm.1)]
            exact not_lt.mpr hm.2
          rw [ih5 hstay]
          simp only [if_neg (not_lt.mpr hm.1)]
      · have hsweq : ¬ s ≠ winner := hsw
        obtain ⟨ih1, ih2, ih3, ih4, ih5⟩ := ih st
        have hstep : extractStep winner bestERT ffac st (s, some e) = st := by
          show (if (s, some e).1 ≠ winner then _ else st) = st
          rw [if_neg hsweq]
        have hfac : withinFac winner bestERT ffac (s, some e) = false := by
          simp [withinFac, hsweq]
        have hnw : nwMin winner ((s, some e) :: t) = nwMin winner t := by
          show (if s ≠ winner then vmin e (nwMin winner t) else nwMin winner t) = _
          rw [if_neg hsweq]
        rw [List.foldl_cons, hstep]
        refine ⟨?_, ?_, ?_, ?_, ?_⟩
        · rw [ih1, List.filter_cons, hfac]
          simp
        · rw [ih2, List.any_cons, hfac, Bool.false_or]
        · rw [ih3, hnw]
        · rw [hnw]
          intro hlt
          obtain ⟨q, hq, hq1, hq2, hq3⟩ := ih4 hlt
          exact ⟨q, List.mem_cons_of_mem _ hq, hq1, hq2, hq3⟩
        · rw [hnw]
          exact ih5

/-- C6: for one considered target row of `extractBestAlgorithms` — given the
winner, the best ert at that target, and each algorithm's own ert there
(`none` standing for no data or NaN) — the winner is always credited; every
non-winner whose ert is within a factor `f_factor` of the best ert is
credited; at least two algorithms are credited whenever some non-winner has a
defined (finite) running time; and when no non-winner is within the factor,
the credited fallback is a non-winner attaining the smallest running time
among non-winners. -/
theorem extractRow_credits (winner : String) (bestERT : Val) (ffac : ℚ)
    (algs : List (String × Option Val))
    (hnames : ∀ p ∈ algs, p.1 ≠ "")
    (hsecond : ∃ p ∈ algs, p.1 ≠ winner ∧ ∃ v : ℚ, p.2 = some ((v : ℚ) : Val)) :
    winner ∈ extractRow winner bestERT ffac algs ∧
    (∀ p ∈ algs, p.1 ≠ winner → ∀ e : Val, p.2 = some e →
      e ≤ mulFac bestERT ffac → p.1 ∈ extractRow winner bestERT ffac algs) ∧
    (∃ a ∈ extractRow winner bestERT ffac algs, a ≠ winner) ∧
    ((∀ p ∈ algs, withinFac winner bestERT ffac p = false) →
      ∃ p ∈ algs, p.1 ≠ winner ∧ p.2 = some (nwMin winner algs) ∧
        p.1 ∈ extractRow winner bestERT ffac algs) := by
  obtain ⟨inv1, inv2, inv3, inv4, inv5⟩ :=
    extractFold_inv winner bestERT ffac algs ⟨[winner], ⊤, "", false⟩
  have hselr : ∀ x,
      x ∈ (algs.foldl (extractStep winner bestERT ffac) ⟨[winner], ⊤, "", false⟩).sel →
      x ∈ extractRow winner bestERT ffac algs := by
    intro x hx
    show x ∈ (if _ then _ ++ [_] else _)
    by_cases hif : (!(algs.foldl (extractStep winner bestERT ffac)
        ⟨[winner], ⊤, "", false⟩).inc) ∧
        (algs.foldl (extractStep winner bestERT ffac) ⟨[winner], ⊤, "", false⟩).sbS ≠ ""
    · rw [if_pos hif]
      exact List.mem_append.mpr (Or.inl hx)
    · rw [if_neg hif]
      exact hx
  have hwinner : winner ∈ extractRow winner bestERT ffac algs := by
    refine hselr winner ?_
    rw [inv1]
    exact List.mem_append.mpr (Or.inl (List.mem_singleton.mpr rfl))
  have hwithin : ∀ p ∈ algs, p.1 ≠ winner → ∀ e : Val, p.2 = some e →
      e ≤ mulFac bestERT ffac → p.1 ∈ extractRow winner bestERT ffac algs := by
    intro p hp hpw e hpe hwf
    refine hselr p.1 ?_
    rw [inv1]
    refine List.mem_append.mpr (Or.inr ?_)
    refine List.mem_map.mpr ⟨p, List.mem_filter.mpr ⟨hp, ?_⟩, rfl⟩
    rcases p with ⟨s, o⟩
    cases hpe
    simp [withinFac, hpw, hwf]
  refine ⟨hwinner, hwithin, ?_, ?_⟩
  · by_cases hinc : (algs.foldl (extractStep winner bestERT ffac)
        ⟨[winner], ⊤, "", false⟩).inc = true
    · rw [inv2, Bool.false_or] at hinc
      obtain ⟨p, hp, hpfac⟩ := List.any_eq_true.mp hinc
      rcases p with ⟨s, o⟩
      rcases o with _ | e
      · exact absurd hpfac (by simp [withinFac])
      · have hsw : s ≠ winner := by
          by_contra hc
          rw [withinFac] at hpfac
          simp [hc] at hpfac
        have hwf : e ≤ mulFac bestERT ffac := by
          rw [withinFac] at hpfac
          simpa [hsw] using hpfac
        exact ⟨s, hwithin (s, some e) hp hsw e rfl hwf, hsw⟩
    · obtain ⟨q, hq, hqw, v, hqv⟩ := hsecond
      have hnwlt : nwMin winner algs < ⊤ :=
        lt_of_le_of_lt (nwMin_le winner algs q hq hqw _ hqv) (WithTop.coe_lt_top v)
      obtain ⟨p, hp, hpw, hpv, hps⟩ := inv4 hnwlt
      have hpne : p.1 ≠ "" := hnames p hp
      have hif : (!(algs.foldl (extractStep winner bestERT ffac)
          ⟨[winner], ⊤, "", false⟩).inc) ∧
          (algs.foldl (extractStep winner bestERT ffac)
            ⟨[winner], ⊤, "", false⟩).sbS ≠ "" := by
        constructor
        · have hfalse : (algs.foldl (extractStep winner bestERT ffac)
              ⟨[winner], ⊤, "", false⟩).inc = false := Bool.eq_false_iff.mpr hinc
          rw [hfalse]
          exact rfl
        · rw [hps]
          exact hpne
      refine ⟨p.1, ?_, hpw⟩
      show p.1 ∈ (if _ then _ ++ [_] else _)
      rw [if_pos hif, ← hps]
      exact List.mem_append.mpr (Or.inr (List.mem_singleton.mpr rfl))
  · intro hall
    have hany : algs.any (withinFac winner bestERT ffac) = false := by
      rw [List.any_eq_false]
      intro p hp
      rw [hall p hp]
      exact Bool.false_ne_true
    have hinc : (algs.foldl (extractStep winner bestERT ffac)
        ⟨[winner], ⊤, "", false⟩).inc = false := by
      rw [inv2, Bool.false_or, hany]
    obtain ⟨q, hq, hqw, v, hqv⟩ := hsecond
    have hnwlt : nwMin winner algs < ⊤ :=
      lt_of_le_of_lt (nwMin_le winner algs q hq hqw _ hqv) (WithTop.coe_lt_top v)
    obtain ⟨p, hp, hpw, hpv, hps⟩ := inv4 hnwlt
    have hpne : p.1 ≠ "" := hnames p hp
    refine ⟨p, hp, hpw, hpv, ?_⟩
    have hif : (!(algs.foldl (extractStep winner bestERT ffac)
        ⟨[winner], ⊤, "", false⟩).inc) ∧
        (algs.foldl (extractStep winner bestERT ffac)
          ⟨[winner], ⊤, "", false⟩).sbS ≠ "" := by
      constructor
      · rw [hinc]
        exact rfl
      · rw [hps]
        exact hpne
    show p.1 ∈ (if _ then _ ++ [_] else _)
    rw [if_pos hif, ← hps]
    exact List.mem_append.mpr (Or.inr (List.mem_singleton.mpr rfl))

/-- Witness for C6's theorem at the spec's scenario: `f_factor = 2`, winner W
with best ert 100, non-winners B (ert 150, within the factor: 150 ≤ 200) and
C (ert 500, not credited). -/
theorem extractRow_credits_witness :
    ((∀ p ∈ [("W", some ((100 : ℚ) : Val)), ("B", some ((150 : ℚ) : Val)),
        ("C", some ((500 : ℚ) : Val))], p.1 ≠ "") ∧
     (∃ p ∈ [("W", some ((100 : ℚ) : Val)), ("B", some ((150 : ℚ) : Val)),
        ("C", some ((500 : ℚ) : Val))], p.1 ≠ "W" ∧ ∃ v : ℚ, p.2 = some ((v : ℚ) : Val))) ∧
    ("W" ∈ extractRow "W" ((100 : ℚ) : Val) 2
        [("W", some ((100 : ℚ) : Val)), ("B", some ((150 : ℚ) : Val)),
         ("C", some ((500 : ℚ) : Val))] ∧
     (∀ p ∈ [("W", some ((100 : ℚ) : Val)), ("B", some ((150 : ℚ) : Val)),
        ("C", some ((500 : ℚ) : Val))], p.1 ≠ "W" → ∀ e : Val, p.2 = some e →
        e ≤ mulFac ((100 : ℚ) : Val) 2 →
        p.1 ∈ extractRow "W" ((100 : ℚ) : Val) 2
          [("W", some ((100 : ℚ) : Val)), ("B", some ((150 : ℚ) : Val)),
           ("C", some ((500 : ℚ) : Val))]) ∧
     (∃ a ∈ extractRow "W" ((100 : ℚ) : Val) 2
        [("W", some ((100 : ℚ) : Val)), ("B", some ((150 : ℚ) : Val)),
         ("C", some ((500 : ℚ) : Val))], a ≠ "W") ∧
     ((∀ p ∈ [("W", some ((100 : ℚ) : Val)), ("B", some ((150 : ℚ) : Val)),
        ("C", some ((500 : ℚ) : Val))], withinFac "W" ((100 : ℚ) : Val) 2 p = false) →
      ∃ p ∈ [("W", some ((100 : ℚ) : Val)), ("B", some ((150 : ℚ) : Val)),
        ("C", some ((500 : ℚ) : Val))], p.1 ≠ "W" ∧
        p.2 = some (nwMin "W" [("W", some ((100 : ℚ) : Val)),
          ("B", some ((150 : ℚ) : Val)), ("C", some ((500 : ℚ) : Val))]) ∧
        p.1 ∈ extractRow "W" ((100 : ℚ) : Val) 2
          [("W", some ((100 : ℚ) : Val)), ("B", some ((150 : ℚ) : Val)),
           ("C", some ((500 : ℚ) : Val))])) :=
  have hsec : ∃ p ∈ [("W", some ((100 : ℚ) : Val)), ("B", some ((150 : ℚ) : Val)),
      ("C", some ((500 : ℚ) : Val))], p.1 ≠ "W" ∧ ∃ v : ℚ, p.2 = some ((v : ℚ) : Val) :=
    ⟨("B", some ((150 : ℚ) : Val)), by decide, by decide, 150, rfl⟩
  ⟨⟨by decide, hsec⟩,
   extractRow_credits "W" ((100 : ℚ) : Val) 2
     [("W", some ((100 : ℚ) : Val)), ("B", some ((150 : ℚ) : Val)),
      ("C", some ((500 : ℚ) : Val))] (by decide) hsec⟩

/-- C7: for every constructed best-algorithm record, the aligned target grid,
the winner list and the ert list have the same length, and the `maxevals`,
`finalfunvals` and `funvalsnofail` mappings are keyed exactly by the distinct
winning algorithms (the deduplicated winner list), not by all inputs. -/
theorem buildBestAlgSet_shape (sortedAlgs : List String) (data : String → DataSetRec)
    (f d : ℤ) (res : List (ℚ × List (Option Val))) :
    (buildBestAlgSet sortedAlgs data f d res).target.length
        = (buildBestAlgSet sortedAlgs data f d res).algs.length ∧
    (buildBestAlgSet sortedAlgs data f d res).algs.length
        = (buildBestAlgSet sortedAlgs data f d res).ert.length ∧
    (buildBestAlgSet sortedAlgs data f d res).maxevals.map Prod.fst
        = (buildBestAlgSet sortedAlgs data f d res).algs.dedup ∧
    (buildBestAlgSet sortedAlgs data f d res).finalfunvals.map Prod.fst
        = (buildBestAlgSet sortedAlgs data f d res).algs.dedup ∧
    (buildBestAlgSet sortedAlgs data f d res).funvalsnofail.map Prod.fst
        = (buildBestAlgSet sortedAlgs data f d res).algs.dedup := by
  refine ⟨?_, ?_, ?_, ?_, ?_⟩ <;>
    simp [buildBestAlgSet, List.map_map, Function.comp_def]

/-- C8: when no row of the reconstructed evals curve has alignment value at
most the queried target, `detEvals` returns an all-NaN vector whose length is
the number of runs (`len(self.bestfinalfunvals)`), and no algorithm name. -/
theorem detEvals1_unreached (evalRows : List (ℚ × List (Option ℚ)))
    (algs : List String) (n : ℕ) (f : ℚ)
    (h : ∀ r ∈ evalRows, f < r.1) :
    detEvals1 evalRows algs n f = (List.replicate n none, none) ∧
    (detEvals1 evalRows algs n f).1.length = n := by
  have hfind : (evalRows.zip algs).find? (fun p => decide (p.1.1 ≤ f)) = none := by
    rw [List.find?_eq_none]
    intro p hp
    rcases p with ⟨r, s⟩
    have hmem := (List.of_mem_zip hp).1
    simp [not_le.mpr (h r hmem)]
  have heq : detEvals1 evalRows algs n f = (List.replicate n none, none) := by
    show (match (evalRows.zip algs).find? (fun p => decide (p.1.1 ≤ f)) with
      | some p => (p.1.2, some p.2)
      | none => (List.replicate n none, none)) = (List.replicate n none, none)
    rw [hfind]
  refine ⟨heq, ?_⟩
  rw [heq]
  exact List.length_replicate n none

/-- Witness for C8's theorem: a one-row curve whose alignment value `1/100` is
larger than the queried target `1/1000`, with two runs. -/
theorem detEvals1_unreached_witness :
    (∀ r ∈ [((2 : ℚ), [some (5 : ℚ)])], (1 : ℚ) < r.1) ∧
    (detEvals1 [((2 : ℚ), [some (5 : ℚ)])] ["A"] 2 1
        = (List.replicate 2 none, none) ∧
     (detEvals1 [((2 : ℚ), [some (5 : ℚ)])] ["A"] 2 1).1.length = 2) :=
  ⟨by decide, detEvals1_unreached _ _ 2 _ (by decide)⟩

theorem sum_map_indicator_eq_one (D : List String) (hD : D.Nodup) (x : String)
    (hx : x ∈ D) :
    (D.map (fun a => if (x == a) = true then (1 : ℕ) else 0)).sum = 1 := by
  induction D with
  | nil => cases hx
  | cons b t ih =>
    rcases List.mem_cons.mp hx with rfl | hmem
    · have hxt : x ∉ t := (List.nodup_cons.mp hD).1
      rw [List.map_cons, List.sum_cons, if_pos (by simp)]
      have hz : (t.map (fun a => if (x == a) = true then (1 : ℕ) else 0)).sum = 0 := by
        apply List.sum_eq_zero
        intro y hy
        obtain ⟨a, ha, rfl⟩ := List.mem_map.mp hy
        rw [if_neg]
        simp only [beq_iff_eq]
        exact fun hc => hxt (hc ▸ ha)
      rw [hz]
    · have hbx : ¬ (x == b) = true := by
        simp only [beq_iff_eq]
        rintro rfl
        exact (List.nodup_cons.mp hD).1 hmem
      rw [List.map_cons, List.sum_cons, if_neg hbx,
        ih (List.nodup_cons.mp hD).2 hmem]

theorem sum_map_add_distrib (D : List String) (f g : String → ℕ) :
    (D.map (fun a => f a + g a)).sum = (D.map f).sum + (D.map g).sum := by
  induction D with
  | nil => rfl
  | cons b t ih =>
    simp only [List.map_cons, List.sum_cons, ih]
    omega

theorem sum_counts_eq_length (D : List String) (hD : D.Nodup) (l : List String)
    (hsub : ∀ x ∈ l, x ∈ D) :
    (D.map (fun a => l.count a)).sum = l.length := by
  induction l with
  | nil => simp
  | cons x t ih =>
    have hone := sum_map_indicator_eq_one D hD x (hsub x (List.mem_cons_self x t))
    have hmap : D.map (fun a => (x :: t).count a)
        = D.map (fun a => t.count a + if (x == a) = true then 1 else 0) := by
      apply List.map_congr_left
      intro a _
      rw [List.count_cons]
    rw [hmap, sum_map_add_distrib, hone,
      ih (fun y hy => hsub y (List.mem_cons_of_mem x hy))]
    rfl

theorem mem_correctedEntries (target : List ℚ) (algs : List String) (lb ub : ℚ)
    (x : String) (hx : x ∈ correctedEntries target algs lb ub) : x ∈ algs := by
  obtain ⟨p, hp, rfl⟩ := List.mem_map.mp hx
  exact (List.of_mem_zip (List.mem_filter.mp hp).1).2

theorem countsFor_eq_sum (cells : List (List ℚ × List String)) (lb ub : ℚ)
    (a : String) :
    countsFor cells lb ub a
      = (cells.map (fun c => (correctedEntries c.1 c.2 lb ub).count a)).sum := by
  rw [countsFor]
  apply congrArg
  apply List.map_congr_left
  intro c _
  by_cases hmem : a ∈ c.2
  · rw [if_pos hmem]
  · rw [if_neg hmem, eq_comm, List.count_eq_zero]
    exact fun hc => hmem (mem_correctedEntries c.1 c.2 lb ub a hc)

theorem sum_map_sum_comm (D : List String) (cells : List (List ℚ × List String))
    (F : (List ℚ × List String) → String → ℕ) :
    (D.map (fun a => (cells.map (fun c => F c a)).sum)).sum
      = (cells.map (fun c => (D.map (fun a => F c a)).sum)).sum := by
  induction cells with
  | nil => simp
  | cons c t ih =>
    have hsplit : (D.map (fun a => ((c :: t).map (fun c2 => F c2 a)).sum)).sum
        = (D.map (fun a => F c a + (t.map (fun c2 => F c2 a)).sum)).sum := by
      apply congrArg
      apply List.map_congr_left
      intro a _
      rw [List.map_cons, List.sum_cons]
    rw [hsplit, sum_map_add_distrib, ih, List.map_cons, List.sum_cons]

/-- C9: for one dimension, summing the per-(dimension, algorithm) tallies of
`getAllContributingAlgorithmsToBest` over all algorithms appearing in that
dimension yields exactly the total number of in-range grid rows over the
dimension's cells — every (function, target-row) credit is counted exactly
once, none lost, none doubled. -/
theorem contributingCounts_sum (cells : List (List ℚ × List String)) (lb ub : ℚ) :
    ((dimAlgs cells).map (countsFor cells lb ub)).sum
      = (cells.map (fun c => (correctedEntries c.1 c.2 lb ub).length)).sum := by
  have h1 : ((dimAlgs cells).map (countsFor cells lb ub)).sum
      = ((dimAlgs cells).map (fun a =>
          (cells.map (fun c => (correctedEntries c.1 c.2 lb ub).count a)).sum)).sum := by
    apply congrArg
    apply List.map_congr_left
    intro a _
    exact countsFor_eq_sum cells lb ub a
  rw [h1, sum_map_sum_comm]
  apply congrArg
  apply List.map_congr_left
  intro c hc
  apply sum_counts_eq_length (dimAlgs cells) (List.nodup_dedup _)
  intro x hx
  have hx2 : x ∈ c.2 := mem_correctedEntries c.1 c.2 lb ub x hx
  rw [dimAlgs, List.mem_dedup]
  exact List.mem_flatten.mpr ⟨c.2, List.mem_map.mpr ⟨c, hc, rfl⟩, hx2⟩

/-- C10: equality of two best-algorithm records is decided solely by the four
fields `funcId`, `dim`, `algId` and `comment`; two records agreeing on those
compare equal even when their target grid, ert values, winner list and evals
curves all differ; and `__ne__` is the exact negation of `__eq__`. -/
theorem beqBAS_four_fields :
    (∀ x y : BestAlgSetRec, beqBAS x y = true ↔
      (x.funcId = y.funcId ∧ x.dim = y.dim ∧ x.algId = y.algId ∧
        x.comment = y.comment)) ∧
    (∀ x y : BestAlgSetRec, bneBAS x y = !(beqBAS x y)) ∧
    (∃ x y : BestAlgSetRec, beqBAS x y = true ∧ x.target ≠ y.target ∧
      x.ert ≠ y.ert ∧ x.algs ≠ y.algs ∧ x.evals ≠ y.evals) := by
  refine ⟨?_, fun x y => rfl, ?_⟩
  · intro x y
    simp [beqBAS, Bool.and_eq_true, beq_iff_eq, and_assoc]
  · refine ⟨⟨1, 2, "a", "c", [1], [⊤], ["A"], [(1, [])], [], [], [], [], ""⟩,
      ⟨1, 2, "a", "c", [], [], [], [], [], [], [], [], ""⟩, ?_, ?_, ?_, ?_, ?_⟩ <;>
      decide
